import Mathlib

/-!
Shallow embedding of the `dl-vsix` repository: the `Extension` identifier
type and its parsing/rendering (`dl.py`), the dependency extractor, the
download traversal loop of `download_extensions`, and the size-bounded
`ExtensionCache` (`extension_cache.py`).  Python strings are modelled as
`List Char`, the filesystem as explicit association lists, and raised
exceptions as explicit error results.
-/

namespace DlVsix

/-- Python `s.split(sep)` for a single-character separator: `""` splits to
`[""]`, and each occurrence of the separator starts a new part. -/
def pySplit (sep : Char) : List Char → List (List Char)
  | [] => [[]]
  | c :: rest =>
    if c = sep then [] :: pySplit sep rest
    else
      match pySplit sep rest with
      | [] => [[c]]
      | p :: ps => (c :: p) :: ps

/-- The `Extension` named tuple from `dl.py`: `(publisher, extension)`. -/
structure Extension where
  publisher : List Char
  extension : List Char
deriving DecidableEq, Repr

/-- Parsing `Extension.from_id`: `publisher, extension = extension_id.split(".")`;
the destructuring assignment raises `ValueError` (here `none`) unless the
split yields exactly two parts. -/
def Extension.from_id (extension_id : List Char) : Option Extension :=
  match pySplit '.' extension_id with
  | [publisher, extension] => some ⟨publisher, extension⟩
  | _ => none

/-- Rendering `Extension.pID`: the full extension ID `"<publisher>.<package>"`. -/
def Extension.pID (e : Extension) : List Char :=
  e.publisher ++ '.' :: e.extension

theorem pySplit_ne_nil (sep : Char) (l : List Char) : pySplit sep l ≠ [] := by
  cases l with
  | nil => simp [pySplit]
  | cons c rest =>
    simp only [pySplit]
    split
    · simp
    · cases h : pySplit sep rest <;> simp

theorem pySplit_length (sep : Char) (l : List Char) :
    (pySplit sep l).length = l.count sep + 1 := by
  induction l with
  | nil => simp [pySplit]
  | cons c rest ih =>
    simp only [pySplit]
    by_cases hc : c = sep
    · simp [hc, List.count_cons, ih]
    · rw [if_neg hc]
      cases h : pySplit sep rest with
      | nil => exact absurd h (pySplit_ne_nil sep rest)
      | cons p ps =>
        rw [h] at ih
        simp only [List.length_cons] at ih ⊢
        simp [List.count_cons, hc, ih]

theorem pySplit_mem_not_mem (sep : Char) (l : List Char) :
    ∀ p ∈ pySplit sep l, sep ∉ p := by
  induction l with
  | nil => simp [pySplit]
  | cons c rest ih =>
    simp only [pySplit]
    by_cases hc : c = sep
    · simp only [if_pos hc]
      intro p hp
      rcases List.mem_cons.mp hp with h | h
      · simp [h]
      · exact ih p h
    · rw [if_neg hc]
      cases h : pySplit sep rest with
      | nil => exact absurd h (pySplit_ne_nil sep rest)
      | cons q qs =>
        intro p hp
        rcases List.mem_cons.mp hp with h' | h'
        · subst h'
          intro hmem
          rcases List.mem_cons.mp hmem with h'' | h''
          · exact hc h''.symm
          · exact ih q (h ▸ List.mem_cons_self q qs) h''
        · exact ih p (h ▸ List.mem_cons_of_mem q h')

theorem pySplit_no_sep (sep : Char) (l : List Char) (h : sep ∉ l) :
    pySplit sep l = [l] := by
  induction l with
  | nil => simp [pySplit]
  | cons c rest ih =>
    simp only [pySplit]
    have hc : ¬c = sep := fun hh => h (hh ▸ List.mem_cons_self c rest)
    rw [if_neg hc, ih (fun hm => h (List.mem_cons_of_mem c hm))]

theorem pySplit_append (sep : Char) (p rest : List Char) (hp : sep ∉ p) :
    pySplit sep (p ++ sep :: rest) = p :: pySplit sep rest := by
  induction p with
  | nil => simp [pySplit]
  | cons c cs ih =>
    have hc : ¬c = sep := fun hh => hp (hh ▸ List.mem_cons_self c cs)
    have ih' := ih (fun hm => hp (List.mem_cons_of_mem c hm))
    simp only [List.cons_append, pySplit, if_neg hc]
    rw [show cs.append (sep :: rest) = cs ++ sep :: rest from rfl, ih']

theorem from_id_eq_of_split (s p q : List Char) (h : pySplit '.' s = [p, q]) :
    Extension.from_id s = some ⟨p, q⟩ := by
  unfold Extension.from_id
  rw [h]

/-- C3: the claim asserts parse must fail on a one-separator string with an
empty publisher part; the code accepts `".py"`, returning an `Extension`
with an empty publisher. -/
theorem from_id_accepts_empty_publisher :
    (['.', 'p', 'y'].count '.' = 1) ∧
      Extension.from_id ['.', 'p', 'y'] = some ⟨[], ['p', 'y']⟩ := by
  constructor
  · decide
  · rfl

/-- C3 (amended): parse succeeds exactly on strings containing exactly one
separator; the two parts are not checked for non-emptiness. -/
theorem from_id_isSome_iff (s : List Char) :
    (Extension.from_id s).isSome ↔ s.count '.' = 1 := by
  unfold Extension.from_id
  have hlen := pySplit_length '.' s
  cases h : pySplit '.' s with
  | nil => exact absurd h (pySplit_ne_nil '.' s)
  | cons p ps =>
    rw [h] at hlen
    cases ps with
    | nil =>
      simp only [List.length_cons, List.length_nil] at hlen
      simp only [Option.isSome]
      constructor
      · intro hcontra
        simp at hcontra
      · intro hcount
        omega
    | cons q qs =>
      cases qs with
      | nil =>
        simp only [List.length_cons, List.length_nil] at hlen
        simp only [Option.isSome_some, true_iff]
        omega
      | cons r rs =>
        simp only [List.length_cons] at hlen
        simp only [Option.isSome]
        constructor
        · intro hcontra
          simp at hcontra
        · intro hcount
          omega

/-- C4: if parse succeeds on `s`, rendering the parsed identifier back to
its canonical dotted form and parsing again yields the same result, i.e.
`parse (render (parse s)) = parse s`. -/
theorem from_id_pID_roundtrip (s : List Char) (x : Extension)
    (h : Extension.from_id s = some x) :
    Extension.from_id x.pID = Extension.from_id s := by
  unfold Extension.from_id at h
  cases hs : pySplit '.' s with
  | nil => exact absurd hs (pySplit_ne_nil '.' s)
  | cons p ps =>
    rw [hs] at h
    cases ps with
    | nil => simp at h
    | cons q qs =>
      cases qs with
      | nil =>
        simp only [Option.some.injEq] at h
        have hp : '.' ∉ p :=
          pySplit_mem_not_mem '.' s p (hs ▸ List.mem_cons_self p [q])
        have hq : '.' ∉ q := by
          refine pySplit_mem_not_mem '.' s q ?_
          rw [hs]
          exact List.mem_cons_of_mem p (List.mem_cons_self q [])
        have hpid : x.pID = p ++ '.' :: q := by rw [← h]; rfl
        rw [hpid]
        have hsplit : pySplit '.' (p ++ '.' :: q) = [p, q] := by
          rw [pySplit_append '.' p q hp, pySplit_no_sep '.' q hq]
        rw [from_id_eq_of_split _ _ _ hsplit, from_id_eq_of_split s p q hs, h]
      | cons r rs => simp at h

theorem from_id_pID_roundtrip_witness :
    Extension.from_id ['a', '.', 'b'] = some ⟨['a'], ['b']⟩ ∧
      Extension.from_id (Extension.pID ⟨['a'], ['b']⟩) =
        Extension.from_id ['a', '.', 'b'] := by
  constructor
  · rfl
  · exact from_id_pID_roundtrip ['a', '.', 'b'] ⟨['a'], ['b']⟩ rfl

/-- The parsed content of an `extension/package.json`: only the
`"extensionDependencies"` field matters to `extract_dependencies`; `none`
models an absent field, in which case `dict.get` falls back to `[]`. -/
structure PackageSpec where
  extensionDependencies : Option (List (List Char))
deriving DecidableEq

/-- A file stored inside a VSIX archive: either unparseable as JSON or a
parsed package spec. -/
inductive FileData where
  | malformed
  | parsed (spec : PackageSpec)
deriving DecidableEq

/-- A VSIX archive, as the association of entry names to contents. -/
structure VsixZip where
  files : List (List Char × FileData)

/-- Errors `extract_dependencies` can raise. -/
inductive DlError where
  | malformedMetadata
  | malformedIdentifier
deriving DecidableEq

/-- The extractor `extract_dependencies` from `dl.py`: if the target entry is absent from
the archive namelist, return the empty set; otherwise parse it as JSON
(raising on malformed data), read `"extensionDependencies"` with default
`[]`, and map each string through `Extension.from_id` (raising on a
malformed identifier). -/
def extract_dependencies (vsix_zip : VsixZip) (target : List Char) :
    Except DlError (List Extension) :=
  match vsix_zip.files.find? (fun f => f.fst = target) with
  | none => .ok []
  | some (_, .malformed) => .error .malformedMetadata
  | some (_, .parsed spec) =>
    match (spec.extensionDependencies.getD []).mapM Extension.from_id with
    | none => .error .malformedIdentifier
    | some exts => .ok exts

/-- C5: extraction returns the empty set without error when the metadata
entry is absent from the archive, and likewise when the entry is present
and parseable but has no dependency-list field. -/
theorem extract_dependencies_empty (z : VsixZip) (target : List Char)
    (h : target ∉ z.files.map Prod.fst ∨
      ∃ name spec,
        z.files.find? (fun f => f.fst = target) =
          some (name, .parsed spec) ∧
        spec.extensionDependencies = none) :
    extract_dependencies z target = .ok [] := by
  rcases h with habs | ⟨name, spec, hfind, hnone⟩
  · have hfind : z.files.find? (fun f => f.fst = target) = none := by
      rw [List.find?_eq_none]
      intro f hf
      simp only [decide_eq_true_eq]
      intro hcontra
      exact habs (hcontra ▸ List.mem_map_of_mem Prod.fst hf)
    unfold extract_dependencies
    rw [hfind]
  · obtain ⟨o⟩ := spec
    cases o with
    | some l => simp at hnone
    | none =>
      unfold extract_dependencies
      rw [hfind]
      rfl

theorem extract_dependencies_empty_witness :
    extract_dependencies (VsixZip.mk [(['a'], .parsed ⟨none⟩)]) ['x'] =
      .ok [] :=
  extract_dependencies_empty (VsixZip.mk [(['a'], .parsed ⟨none⟩)]) ['x']
    (Or.inl (by decide))

/-! ## The download traversal (`download_extensions` in `dl.py`) -/

/-- Python `list.pop()`: detach the last element. -/
def pyPop {α : Type} : List α → Option (α × List α)
  | [] => none
  | [x] => some (x, [])
  | x :: y :: xs =>
    match pyPop (y :: xs) with
    | none => none
    | some (e, rest) => some (e, x :: rest)

theorem pyPop_eq_some {α : Type} (l rest : List α) (e : α)
    (h : pyPop l = some (e, rest)) : l = rest ++ [e] := by
  induction l generalizing rest with
  | nil => simp [pyPop] at h
  | cons x xs ih =>
    cases xs with
    | nil =>
      simp only [pyPop, Option.some.injEq, Prod.mk.injEq] at h
      rw [← h.1, ← h.2]
      rfl
    | cons y ys =>
      simp only [pyPop] at h
      cases hp : pyPop (y :: ys) with
      | none => rw [hp] at h; simp at h
      | some pr =>
        obtain ⟨e', rest'⟩ := pr
        rw [hp] at h
        simp only [Option.some.injEq, Prod.mk.injEq] at h
        obtain ⟨he, hr⟩ := h
        subst he
        have hxs := ih rest' hp
        rw [← hr, List.cons_append, hxs]

/-- The registry and gallery behaviour the traversal runs against:
`latest` models `query_latest_version` (an `error` models the exception it
raises on a non-success response or lookup error), `fetchStatus` the HTTP
status of the VSIX `GET`, and `deps` the dependency set extracted from the
downloaded file of a given extension and version. -/
structure World where
  latest : Extension → Except Unit (List Char)
  fetchStatus : Extension → List Char → Nat
  deps : Extension → List Char → List Extension

/-- The traversal state: the pending queue (a Python list popped from the
end), the `seen_extensions` set, and the ghost log of attempted
identifiers (one per loop iteration). -/
structure DlState where
  queue : List Extension
  seen : List Extension
  attempts : List Extension
deriving DecidableEq, Repr

/-- Outcome of the traversal loop: normal termination, an uncaught
exception from `query_latest_version` (which aborts the whole loop), or
fuel exhaustion. -/
inductive DlResult where
  | done (final : DlState)
  | aborted (failed : Extension) (st : DlState)
  | outOfFuel (st : DlState)
deriving DecidableEq, Repr

/-- Python `set.add` on a set modelled as a duplicate-free list. -/
def setAdd (s : List Extension) (x : Extension) : List Extension :=
  if x ∈ s then s else x :: s

theorem setAdd_mem (s : List Extension) (e x : Extension) :
    x ∈ setAdd s e ↔ x = e ∨ x ∈ s := by
  unfold setAdd
  by_cases he : e ∈ s
  · rw [if_pos he]
    constructor
    · exact fun h => Or.inr h
    · rintro (rfl | h)
      · exact he
      · exact h
  · rw [if_neg he]
    simp [List.mem_cons]

/-- The `while extensions:` loop of `download_extensions`: pop the last
queue item, resolve its latest version (an exception aborts the loop),
stream the artifact (non-OK status skips to the next item), record success
in `seen_extensions`, and when following dependencies enqueue every
extracted dependency not in the seen set. -/
def runDl (w : World) (follow : Bool) : Nat → DlState → DlResult
  | 0, st => if st.queue = [] then .done st else .outOfFuel st
  | fuel + 1, st =>
    match pyPop st.queue with
    | none => .done st
    | some (ext, rest) =>
      match w.latest ext with
      | .error _ => .aborted ext ⟨rest, st.seen, st.attempts ++ [ext]⟩
      | .ok latest_ver =>
        if w.fetchStatus ext latest_ver = 200 then
          runDl w follow fuel
            ⟨(if follow then
                rest ++ (w.deps ext latest_ver).filter
                  (fun d => decide (d ∉ setAdd st.seen ext))
              else rest),
             setAdd st.seen ext, st.attempts ++ [ext]⟩
        else
          runDl w follow fuel ⟨rest, st.seen, st.attempts ++ [ext]⟩

/-- An extension's download succeeds in world `w`: its latest version
resolves and the gallery responds 200 to the VSIX fetch. -/
def succeeds (w : World) (x : Extension) : Prop :=
  ∃ v, w.latest x = .ok v ∧ w.fetchStatus x v = 200

/-- The identifiers reachable from the seed through the declared
dependencies of successfully downloaded extensions. -/
inductive ReachSucc (w : World) (seed : List Extension) : Extension → Prop where
  | seed : ∀ {x}, x ∈ seed → ReachSucc w seed x
  | dep : ∀ {x d v}, ReachSucc w seed x → w.latest x = .ok v →
      w.fetchStatus x v = 200 → d ∈ w.deps x v → ReachSucc w seed d

theorem pyPop_eq_none {α : Type} (l : List α) (h : pyPop l = none) : l = [] := by
  induction l with
  | nil => rfl
  | cons x xs ih =>
    cases xs with
    | nil => simp [pyPop] at h
    | cons y ys =>
      simp only [pyPop] at h
      cases hp : pyPop (y :: ys) with
      | none => exact absurd (ih hp) (by simp)
      | some pr =>
        obtain ⟨a, b⟩ := pr
        rw [hp] at h
        simp at h

theorem runDl_succ_pop_none (w : World) (follow : Bool) (fuel : Nat)
    (st : DlState) (hp : pyPop st.queue = none) :
    runDl w follow (fuel + 1) st = .done st := by
  simp [runDl, hp]

theorem runDl_succ_error (w : World) (follow : Bool) (fuel : Nat)
    (st : DlState) (ext : Extension) (rest : List Extension) (err : Unit)
    (hp : pyPop st.queue = some (ext, rest))
    (hl : w.latest ext = .error err) :
    runDl w follow (fuel + 1) st =
      .aborted ext ⟨rest, st.seen, st.attempts ++ [ext]⟩ := by
  simp [runDl, hp, hl]

theorem runDl_succ_ok_200 (w : World) (follow : Bool) (fuel : Nat)
    (st : DlState) (ext : Extension) (rest : List Extension) (v : List Char)
    (hp : pyPop st.queue = some (ext, rest))
    (hl : w.latest ext = .ok v) (hf : w.fetchStatus ext v = 200) :
    runDl w follow (fuel + 1) st =
      runDl w follow fuel
        ⟨(if follow then
            rest ++ (w.deps ext v).filter
              (fun d => decide (d ∉ setAdd st.seen ext))
          else rest),
         setAdd st.seen ext, st.attempts ++ [ext]⟩ := by
  simp [runDl, hp, hl, hf]

theorem runDl_succ_ok_fail (w : World) (follow : Bool) (fuel : Nat)
    (st : DlState) (ext : Extension) (rest : List Extension) (v : List Char)
    (hp : pyPop st.queue = some (ext, rest))
    (hl : w.latest ext = .ok v) (hf : ¬w.fetchStatus ext v = 200) :
    runDl w follow (fuel + 1) st =
      runDl w follow fuel ⟨rest, st.seen, st.attempts ++ [ext]⟩ := by
  simp [runDl, hp, hl, hf]

/-- The workhorse invariant of a completed traversal: queue members and
previous attempts survive into the final attempt log, the seen set only
grows, final seen members either pre-existed or succeeded, successful new
attempts land in the seen set, dependencies of newly seen extensions are
attempted, and (given the inflow invariant) the seen set stays inside the
attempt log. -/
theorem runDl_done_inv (w : World) (fuel : Nat) (st final : DlState)
    (hsa : ∀ x ∈ st.seen, x ∈ st.attempts)
    (h : runDl w true fuel st = .done final) :
    (∀ x ∈ st.queue, x ∈ final.attempts) ∧
    (∀ x ∈ st.attempts, x ∈ final.attempts) ∧
    (∀ x ∈ st.seen, x ∈ final.seen) ∧
    (∀ x ∈ final.seen, x ∈ st.seen ∨ succeeds w x) ∧
    (∀ x ∈ final.attempts, x ∈ st.attempts ∨ ¬succeeds w x ∨ x ∈ final.seen) ∧
    (∀ x ∈ final.seen, x ∈ st.seen ∨
      ∀ v, w.latest x = .ok v → ∀ d ∈ w.deps x v, d ∈ final.attempts) ∧
    (∀ x ∈ final.seen, x ∈ final.attempts) := by
  induction fuel generalizing st with
  | zero =>
    simp only [runDl] at h
    split at h
    case isTrue hq =>
      obtain rfl : st = final := by injection h
      refine ⟨?_, fun x hx => hx, fun x hx => hx, fun x hx => Or.inl hx,
        fun x hx => Or.inl hx, fun x hx => Or.inl hx, hsa⟩
      intro x hx
      rw [hq] at hx
      simp at hx
    case isFalse hq => exact absurd h (by simp)
  | succ fuel ih =>
    cases hp : pyPop st.queue with
    | none =>
      rw [runDl_succ_pop_none w true fuel st hp] at h
      obtain rfl : st = final := by injection h
      exact ⟨fun x hx => absurd hx (by rw [pyPop_eq_none _ hp]; simp),
        fun x hx => hx, fun x hx => hx, fun x hx => Or.inl hx,
        fun x hx => Or.inl hx, fun x hx => Or.inl hx, hsa⟩
    | some pr =>
      obtain ⟨ext, rest⟩ := pr
      have hqueue : st.queue = rest ++ [ext] := pyPop_eq_some _ _ _ hp
      cases hl : w.latest ext with
      | error err =>
        rw [runDl_succ_error w true fuel st ext rest err hp hl] at h
        simp at h
      | ok v =>
        by_cases hf : w.fetchStatus ext v = 200
        · rw [runDl_succ_ok_200 w true fuel st ext rest v hp hl hf,
            if_pos rfl] at h
          have hsa' : ∀ x ∈ setAdd st.seen ext, x ∈ st.attempts ++ [ext] := by
            intro x hx
            rcases (setAdd_mem _ _ _).mp hx with rfl | hx'
            · exact List.mem_append_right _ (List.mem_singleton.mpr rfl)
            · exact List.mem_append_left _ (hsa x hx')
          obtain ⟨ih1, ih2, ih3, ih4, ih5, ih6, ih7⟩ := ih _ hsa' h
          refine ⟨?_, ?_, ?_, ?_, ?_, ?_, ih7⟩
          · intro x hx
            rw [hqueue] at hx
            rcases List.mem_append.mp hx with hx' | hx'
            · exact ih1 x (List.mem_append_left _ hx')
            · rw [List.mem_singleton] at hx'
              exact ih2 x (List.mem_append_right _ (by simp [hx']))
          · intro x hx
            exact ih2 x (List.mem_append_left _ hx)
          · intro x hx
            exact ih3 x ((setAdd_mem _ _ _).mpr (Or.inr hx))
          · intro x hx
            rcases ih4 x hx with hx' | hx'
            · rcases (setAdd_mem _ _ _).mp hx' with rfl | hx''
              · exact Or.inr ⟨v, hl, hf⟩
              · exact Or.inl hx''
            · exact Or.inr hx'
          · intro x hx
            rcases ih5 x hx with hx' | hx' | hx'
            · rcases List.mem_append.mp hx' with hx'' | hx''
              · exact Or.inl hx''
              · rw [List.mem_singleton] at hx''
                subst hx''
                exact Or.inr (Or.inr (ih3 x ((setAdd_mem _ _ _).mpr (Or.inl rfl))))
            · exact Or.inr (Or.inl hx')
            · exact Or.inr (Or.inr hx')
          · intro x hx
            rcases ih6 x hx with hx' | hx'
            · rcases (setAdd_mem _ _ _).mp hx' with rfl | hx''
              · refine Or.inr ?_
                intro v' hv' d hd
                rw [hl] at hv'
                injection hv' with hv''
                subst hv''
                by_cases hds : d ∈ setAdd st.seen x
                · exact ih7 d (ih3 d hds)
                · refine ih1 d (List.mem_append_right _ ?_)
                  exact List.mem_filter.mpr ⟨hd, by simp [hds]⟩
              · exact Or.inl hx''
            · exact Or.inr hx'
        · rw [runDl_succ_ok_fail w true fuel st ext rest v hp hl hf] at h
          have hsa' : ∀ x ∈ st.seen, x ∈ st.attempts ++ [ext] :=
            fun x hx => List.mem_append_left _ (hsa x hx)
          obtain ⟨ih1, ih2, ih3, ih4, ih5, ih6, ih7⟩ := ih _ hsa' h
          refine ⟨?_, ?_, ih3, ih4, ?_, ih6, ih7⟩
          · intro x hx
            rw [hqueue] at hx
            rcases List.mem_append.mp hx with hx' | hx'
            · exact ih1 x hx'
            · rw [List.mem_singleton] at hx'
              exact ih2 x (List.mem_append_right _ (by simp [hx']))
          · intro x hx
            exact ih2 x (List.mem_append_left _ hx)
          · intro x hx
            rcases ih5 x hx with hx' | hx' | hx'
            · rcases List.mem_append.mp hx' with hx'' | hx''
              · exact Or.inl hx''
              · rw [List.mem_singleton] at hx''
                subst hx''
                refine Or.inr (Or.inl ?_)
                rintro ⟨v', hv', hf'⟩
                rw [hl] at hv'
                injection hv' with hv''
                exact hf (hv'' ▸ hf')
            · exact Or.inr (Or.inl hx')
            · exact Or.inr (Or.inr hx')

/-- C2 (amended): on a terminating traversal with `follow_dependencies`
true, every identifier reachable from the seed through dependencies of
successfully downloaded extensions is attempted at least once (an
identifier may be attempted more than once, since dependencies are only
checked against the seen set, not the pending queue), and the final seen
set contains exactly the identifiers whose download succeeded. -/
theorem download_traversal_amended (w : World) (seed : List Extension)
    (fuel : Nat) (final : DlState)
    (h : runDl w true fuel ⟨seed, [], []⟩ = .done final) :
    (∀ x, ReachSucc w seed x → x ∈ final.attempts) ∧
    (∀ x, x ∈ final.seen ↔ (x ∈ final.attempts ∧ succeeds w x)) := by
  obtain ⟨h1, h2, h3, h4, h5, h6, h7⟩ :=
    runDl_done_inv w fuel ⟨seed, [], []⟩ final (by simp) h
  constructor
  · intro x hx
    induction hx with
    | seed hs => exact h1 _ hs
    | dep hr hlat hfet hdep ihx =>
      rcases h5 _ ihx with h' | h' | h'
      · simp at h'
      · exact absurd ⟨_, hlat, hfet⟩ h'
      · rcases h6 _ h' with h'' | h''
        · simp at h''
        · exact h'' _ hlat _ hdep
  · intro x
    constructor
    · intro hx
      refine ⟨h7 _ hx, ?_⟩
      rcases h4 _ hx with h' | h'
      · simp at h'
      · exact h'
    · rintro ⟨ha, hs⟩
      rcases h5 _ ha with h' | h' | h'
      · simp at h'
      · exact absurd hs h'
      · exact h'

/-- A concrete extension `p.a`. -/
def extA : Extension := ⟨['p'], ['a']⟩

/-- A concrete extension `p.b`. -/
def extB : Extension := ⟨['p'], ['b']⟩

/-- A registry where every extension resolves to version `1`, every fetch
returns 200, and no extension declares dependencies. -/
def wGood : World where
  latest := fun _ => .ok ['1']
  fetchStatus := fun _ _ => 200
  deps := fun _ _ => []

/-- A registry where resolution of `p.b` raises and everything else
resolves and downloads fine. -/
def wAbort : World where
  latest := fun e => if e = extB then .error () else .ok ['1']
  fetchStatus := fun _ _ => 200
  deps := fun _ _ => []

theorem download_traversal_amended_witness :
    extA ∈ (DlState.mk [] [extA] [extA]).attempts ∧
    (extA ∈ (DlState.mk [] [extA] [extA]).seen ↔
      (extA ∈ (DlState.mk [] [extA] [extA]).attempts ∧ succeeds wGood extA)) :=
  ⟨(download_traversal_amended wGood [extA] 2 ⟨[], [extA], [extA]⟩ rfl).1
      extA (ReachSucc.seed (by decide)),
    (download_traversal_amended wGood [extA] 2 ⟨[], [extA], [extA]⟩ rfl).2
      extA⟩

/-- C2 counterexample: the claim says every identifier reachable from the
seed is attempted exactly once for every seed sequence; with the duplicate
seed `[p.a, p.a]` the loop attempts `p.a` twice, because no check guards a
popped identifier against the seen set or against duplicates already in
the queue. -/
theorem download_duplicate_seed_attempted_twice :
    runDl wGood true 3 ⟨[extA, extA], [], []⟩ =
      .done ⟨[], [extA], [extA, extA]⟩ ∧
    ([extA, extA].count extA = 2) := by
  constructor
  · rfl
  · rfl

/-- C1: in `download_extensions` the `query_latest_version` call is not
wrapped in any error handling, so a registry failure for one identifier
(here `p.b`, popped first from seed `[p.a, p.b]`) propagates and aborts
the whole traversal: the run ends `aborted`, with seed member `p.a` never
attempted. -/
theorem registry_failure_aborts_traversal :
    runDl wAbort true 3 ⟨[extA, extB], [], []⟩ =
      .aborted extB ⟨[extA], [], [extB]⟩ ∧
    extA ∈ [extA, extB] ∧
    extA ∉ (DlState.mk [extA] [] [extB]).attempts := by
  refine ⟨rfl, by decide, by decide⟩

/-! ## Streaming an artifact to disk (`download_extensions`, dl.py:97-104) -/

/-- A streamed HTTP response: the status code, the byte chunks the
transport delivers, and whether iterating the body raises a transport
error after those chunks instead of completing. -/
structure Response where
  status : Nat
  chunks : List (List Nat)
  transportError : Bool
deriving DecidableEq

/-- State of the output path after the download of one artifact: the code
either never opens the file (non-OK status) or opens it at its final name
and appends each delivered chunk. -/
inductive FileState where
  | absent
  | written (content : List Nat)
deriving DecidableEq

/-- The `for chunk in r.iter_bytes(): f.write(chunk)` loop: every
delivered chunk is appended to the file before the next is requested. -/
def writeAll (file : List Nat) : List (List Nat) → List Nat
  | [] => file
  | c :: cs => writeAll (file ++ c) cs

/-- The streaming block of `download_extensions`: on a 200 status the file
is opened directly at `out_dir / f"{ext}_{latest_ver}.vsix"` and chunks
are written as they arrive; the boolean records whether an exception
propagated out of the block. No temporary name, marker, or cleanup exists
on the error path. -/
def streamToFile (r : Response) : FileState × Bool :=
  if r.status = 200 then
    (FileState.written (writeAll [] r.chunks), r.transportError)
  else (FileState.absent, false)

/-- C9: a transport error after the first chunk leaves the output file at
its final name holding the partial bytes — the exact same on-disk state a
successful download of that content produces, so the failed fetch is
indistinguishable from a success (neither complete-or-absent nor marked
incomplete). -/
theorem half_written_file_indistinguishable :
    (streamToFile ⟨200, [[1, 2]], true⟩).2 = true ∧
    (streamToFile ⟨200, [[1, 2]], false⟩).2 = false ∧
    (streamToFile ⟨200, [[1, 2]], true⟩).1 =
      (streamToFile ⟨200, [[1, 2]], false⟩).1 ∧
    (streamToFile ⟨200, [[1, 2]], true⟩).1 = .written [1, 2] :=
  ⟨rfl, rfl, rfl, rfl⟩

/-! ## The extension cache (`extension_cache.py`) -/

/-- Filesystem metadata of one file, as `Path.stat()` exposes it here. -/
structure PyFile where
  mtime : Nat
  size : Nat
deriving DecidableEq, Repr

instance : Inhabited PyFile := ⟨⟨0, 0⟩⟩

/-- A flat directory: file names (the cache uses no subdirectories)
associated to their metadata. -/
abbrev Dir := List (List Char × PyFile)

/-- The rightmost-separator search of `pathlib`: index of the last `'.'`. -/
def lastIdxOf (c : Char) : List Char → Option Nat
  | [] => none
  | x :: xs =>
    match lastIdxOf c xs with
    | some i => some (i + 1)
    | none => if x = c then some 0 else none

/-- Python `PurePath.suffix`: the final extension, empty unless the last dot is
neither leading nor trailing. -/
def pathSuffix (name : List Char) : List Char :=
  match lastIdxOf '.' name with
  | some i => if 0 < i ∧ i < name.length - 1 then name.drop i else []
  | none => []

/-- Python `PurePath.stem`: the file name without its final extension. -/
def pathStem (name : List Char) : List Char :=
  match lastIdxOf '.' name with
  | some i => if 0 < i ∧ i < name.length - 1 then name.take i else name
  | none => name

/-- The `CachedExtension` named tuple from `extension_cache.py`. -/
structure CachedExtension where
  extension : Extension
  version : List Char
  created_at : Nat
  cache_path : List Char
  byte_size : Nat
deriving DecidableEq, Repr

/-- The `ValueError`s raised while building a `CachedExtension` or
inserting, plus the `IndexError` a starved prune loop would raise. -/
inductive CacheError where
  | fileNotFound
  | notAVsix
  | malformedStem
  | malformedId
  | indexError
deriving DecidableEq, Repr

/-- Entry construction `CachedExtension.from_vsix_path`: require the file to exist, carry the
(case-insensitive) `.vsix` suffix, and have a stem splitting into exactly
`identifier_version`; `created_at` and `byte_size` come from `stat()`. -/
def CachedExtension.from_vsix_path (dir : Dir) (vsix_filepath : List Char) :
    Except CacheError CachedExtension :=
  match dir.find? (fun f => f.fst = vsix_filepath) with
  | none => .error .fileNotFound
  | some (_, stats) =>
    if (pathSuffix vsix_filepath).map Char.toLower ≠
        ['.', 'v', 's', 'i', 'x'] then
      .error .notAVsix
    else
      match pySplit '_' (pathStem vsix_filepath) with
      | [extension_id, version] =>
        match Extension.from_id extension_id with
        | none => .error .malformedId
        | some e =>
          .ok ⟨e, version, stats.mtime, vsix_filepath, stats.size⟩
      | _ => .error .malformedStem

/-- The cache aggregate: the configured maximum size in MB, the cache
directory's files, and the `_package_cache` dict (an insertion-ordered
association of extensions to entries, keyed by the `extension` field). -/
structure ExtensionCache where
  maxsize_mb : Nat
  cache_dir : Dir
  package_cache : List CachedExtension
deriving DecidableEq, Repr

/-- The factor `1 << 20` of `bytes2megabytes`, bytes per megabyte. -/
def mbBytes : Nat := 1048576

/-- Total byte size of the cached entries; `cache_size` in MB is this
value divided by `2^20`, and all comparisons against `maxsize_mb` are
translated to exact integer comparisons against `maxsize_mb * 2^20`. -/
def totalBytes (c : ExtensionCache) : Nat :=
  (c.package_cache.map CachedExtension.byte_size).sum

/-- Removal `ExtensionCache.remove`: pop the entry for the key (a reported no-op
when absent) and unlink its backing file. -/
def ExtensionCache.remove (c : ExtensionCache) (extension : Extension) :
    ExtensionCache :=
  match c.package_cache.find? (fun p => p.extension = extension) with
  | none => c
  | some ext =>
    { c with
      package_cache :=
        c.package_cache.eraseP (fun p => p.extension = extension),
      cache_dir := c.cache_dir.eraseP (fun f => f.fst = ext.cache_path) }

/-- Stable insertion step for sorting by `created_at` descending: an
element moves past strictly newer ones only, matching Python's stable
`sorted(..., key=attrgetter("created_at"), reverse=True)`. -/
def insertCreatedDesc (e : CachedExtension) :
    List CachedExtension → List CachedExtension
  | [] => [e]
  | x :: xs =>
    if e.created_at < x.created_at then x :: insertCreatedDesc e xs
    else e :: x :: xs

/-- Stable sort of the cache entries by `created_at`, newest first. -/
def sortCreatedDesc : List CachedExtension → List CachedExtension
  | [] => []
  | x :: xs => insertCreatedDesc x (sortCreatedDesc xs)

/-- The `while freed_bytes < bytes_needed:` selection loop of
`_prune_cache`, operating on the pop-from-the-end order of the
newest-first sorted list (its reverse, oldest first); `none` models the
`IndexError` of popping an exhausted list. -/
def purgeSelect (needed : Nat) :
    List CachedExtension → Nat → Option (List CachedExtension)
  | [], freed => if freed < needed then none else some []
  | e :: rest, freed =>
    if freed < needed then
      (purgeSelect needed rest (freed + e.byte_size)).map (e :: ·)
    else some []

/-- The list of entries `_prune_cache` chooses to purge. -/
def pruneSelection (c : ExtensionCache) : Option (List CachedExtension) :=
  purgeSelect (totalBytes c - c.maxsize_mb * mbBytes)
    (sortCreatedDesc c.package_cache).reverse 0

/-- Eviction `ExtensionCache._prune_cache`: a no-op when the size is within the
threshold, otherwise remove the selected oldest entries in order. -/
def ExtensionCache._prune_cache (c : ExtensionCache) :
    Option ExtensionCache :=
  if totalBytes c ≤ c.maxsize_mb * mbBytes then some c
  else
    match pruneSelection c with
    | none => none
    | some to_purge =>
      some (to_purge.foldl (fun acc p => acc.remove p.extension) c)

/-- Write a file into a directory, overwriting an existing entry of the
same name (`shutil.copy2` preserves size and modification time). -/
def dirSet (d : Dir) (name : List Char) (f : PyFile) : Dir :=
  if d.any (fun g => g.fst = name) then
    d.map (fun g => if g.fst = name then (name, f) else g)
  else d ++ [(name, f)]

/-- Python dict assignment `self._package_cache[ext.extension] = ext`:
replace in place when the key exists, append otherwise. -/
def dictSet (l : List CachedExtension) (e : CachedExtension) :
    List CachedExtension :=
  if l.any (fun p => p.extension = e.extension) then
    l.map (fun p => if p.extension = e.extension then e else p)
  else l ++ [e]

/-- Last stage of `ExtensionCache.insert`: register the rebuilt entry's
cache state and run `self._prune_cache()`; the second component reports a
raised exception and the first the cache state at that point. -/
def registerAndPrune (c2 : ExtensionCache) :
    ExtensionCache × Option CacheError :=
  match ExtensionCache._prune_cache c2 with
  | none => (c2, some .indexError)
  | some c' => (c', none)

/-- After `shutil.copy2` placed the file in the cache directory: rebuild
the entry from the destination (`CachedExtension.from_vsix_path(dest)`),
register it in the dict, and prune. -/
def insertCopied (c : ExtensionCache) (name : List Char) (stats : PyFile) :
    ExtensionCache × Option CacheError :=
  match CachedExtension.from_vsix_path (dirSet c.cache_dir name stats)
      name with
  | .error e =>
    ({ c with cache_dir := dirSet c.cache_dir name stats }, some e)
  | .ok ext =>
    registerAndPrune
      { c with
        cache_dir := dirSet c.cache_dir name stats,
        package_cache := dictSet c.package_cache ext }

/-- The copy stage of `ExtensionCache.insert`: read the source file's
metadata and copy it into the cache directory under its own name. -/
def insertCopy (src : Dir) (c : ExtensionCache) (name : List Char) :
    ExtensionCache × Option CacheError :=
  match src.find? (fun f => f.fst = name) with
  | none => (c, some .fileNotFound)
  | some (_, stats) => insertCopied c name stats

/-- The dedup/replace decision of `ExtensionCache.insert` once the source
parsed to `pre`: short-circuit when the same version is cached and `force`
is false, drop a differing existing entry first, then copy. -/
def insertWithPre (src : Dir) (c : ExtensionCache)
    (vsix_filepath : List Char) (force : Bool) (pre : CachedExtension) :
    ExtensionCache × Option CacheError :=
  match c.package_cache.find? (fun p => p.extension = pre.extension) with
  | some chk =>
    if chk.version = pre.version ∧ force = false then (c, none)
    else insertCopy src (c.remove pre.extension) vsix_filepath
  | none => insertCopy src c vsix_filepath

/-- Insertion `ExtensionCache.insert`: parse the source path (raising on bad input
before any mutation), then run the dedup/replace/copy/prune pipeline. -/
def ExtensionCache.insert (src : Dir) (c : ExtensionCache)
    (vsix_filepath : List Char) (force : Bool) :
    ExtensionCache × Option CacheError :=
  match CachedExtension.from_vsix_path src vsix_filepath with
  | .error e => (c, some e)
  | .ok pre => insertWithPre src c vsix_filepath force pre

theorem insertCreatedDesc_perm (e : CachedExtension)
    (l : List CachedExtension) :
    List.Perm (insertCreatedDesc e l) (e :: l) := by
  induction l with
  | nil => exact List.Perm.refl _
  | cons x xs ih =>
    unfold insertCreatedDesc
    split
    · exact (ih.cons x).trans (List.Perm.swap e x xs)
    · exact List.Perm.refl _

theorem sortCreatedDesc_perm (l : List CachedExtension) :
    List.Perm (sortCreatedDesc l) l := by
  induction l with
  | nil => exact List.Perm.refl _
  | cons x xs ih => exact (insertCreatedDesc_perm x _).trans (ih.cons x)

theorem insertCreatedDesc_pairwise (e : CachedExtension)
    (l : List CachedExtension)
    (h : l.Pairwise (fun a b => b.created_at ≤ a.created_at)) :
    (insertCreatedDesc e l).Pairwise
      (fun a b => b.created_at ≤ a.created_at) := by
  induction l with
  | nil => simp [insertCreatedDesc]
  | cons x xs ih =>
    rw [List.pairwise_cons] at h
    obtain ⟨hx, hxs⟩ := h
    unfold insertCreatedDesc
    split
    case isTrue hlt =>
      rw [List.pairwise_cons]
      refine ⟨?_, ih hxs⟩
      intro y hy
      rcases List.mem_cons.mp ((insertCreatedDesc_perm e xs).mem_iff.mp hy)
        with rfl | hy'
      · exact Nat.le_of_lt hlt
      · exact hx y hy'
    case isFalse hge =>
      rw [List.pairwise_cons]
      refine ⟨?_, List.pairwise_cons.mpr ⟨hx, hxs⟩⟩
      intro y hy
      rcases List.mem_cons.mp hy with rfl | hy'
      · omega
      · exact le_trans (hx y hy') (by omega)

theorem sortCreatedDesc_pairwise (l : List CachedExtension) :
    (sortCreatedDesc l).Pairwise
      (fun a b => b.created_at ≤ a.created_at) := by
  induction l with
  | nil => simp [sortCreatedDesc]
  | cons x xs ih => exact insertCreatedDesc_pairwise x _ ih

theorem purgeSelect_sublist (needed : Nat) (pool : List CachedExtension)
    (freed : Nat) (res : List CachedExtension)
    (h : purgeSelect needed pool freed = some res) : res.Sublist pool := by
  induction pool generalizing freed res with
  | nil =>
    unfold purgeSelect at h
    split at h
    · exact absurd h (by simp)
    · obtain rfl : res = [] := by
        injection h with h'
        exact h'.symm
      exact List.nil_sublist _
  | cons e rest ih =>
    unfold purgeSelect at h
    split at h
    · cases hq : purgeSelect needed rest (freed + e.byte_size) with
      | none => rw [hq] at h; simp at h
      | some res' =>
        rw [hq] at h
        simp only [Option.map_some'] at h
        obtain rfl : res = e :: res' := by
          injection h with h'
          exact h'.symm
        exact (ih _ _ hq).cons₂ e
    · obtain rfl : res = [] := by
        injection h with h'
        exact h'.symm
      exact List.nil_sublist _

theorem purgeSelect_sum (needed : Nat) (pool : List CachedExtension)
    (freed : Nat) (res : List CachedExtension)
    (h : purgeSelect needed pool freed = some res) :
    needed ≤ freed + (res.map CachedExtension.byte_size).sum := by
  induction pool generalizing freed res with
  | nil =>
    unfold purgeSelect at h
    split at h
    · exact absurd h (by simp)
    case isFalse hge =>
      obtain rfl : res = [] := by
        injection h with h'
        exact h'.symm
      simp
      omega
  | cons e rest ih =>
    unfold purgeSelect at h
    split at h
    · cases hq : purgeSelect needed rest (freed + e.byte_size) with
      | none => rw [hq] at h; simp at h
      | some res' =>
        rw [hq] at h
        simp only [Option.map_some'] at h
        obtain rfl : res = e :: res' := by
          injection h with h'
          exact h'.symm
        have := ih _ _ hq
        simp only [List.map_cons, List.sum_cons]
        omega
    case isFalse hge =>
      obtain rfl : res = [] := by
        injection h with h'
        exact h'.symm
      simp
      omega

theorem purgeSelect_isSome (needed : Nat) (pool : List CachedExtension)
    (freed : Nat)
    (h : needed ≤ freed + (pool.map CachedExtension.byte_size).sum) :
    (purgeSelect needed pool freed).isSome := by
  induction pool generalizing freed with
  | nil =>
    unfold purgeSelect
    split
    case isTrue hlt =>
      simp only [List.map_nil, List.sum_nil] at h
      omega
    case isFalse => simp
  | cons e rest ih =>
    unfold purgeSelect
    split
    · have hh : needed ≤ (freed + e.byte_size) +
          (rest.map CachedExtension.byte_size).sum := by
        simp only [List.map_cons, List.sum_cons] at h
        omega
      have := ih (freed + e.byte_size) hh
      cases hq : purgeSelect needed rest (freed + e.byte_size) with
      | none => rw [hq] at this; simp at this
      | some res' => simp
    · simp

/-- The three concrete cache entries of the eviction scenario: byte sizes
700000 / 300000 / 1000000, created in that order. -/
def extC : Extension := ⟨['p'], ['c']⟩

def entryA : CachedExtension := ⟨extA, ['1'], 1, ['a'], 700000⟩

def entryB : CachedExtension := ⟨extB, ['1'], 2, ['b'], 300000⟩

def entryC : CachedExtension := ⟨extC, ['1'], 3, ['c'], 1000000⟩

/-- A cache of exactly those three entries with a 1 MB maximum size. -/
def cacheC6 : ExtensionCache :=
  { maxsize_mb := 1,
    cache_dir := [(['a'], ⟨1, 700000⟩), (['b'], ⟨2, 300000⟩),
      (['c'], ⟨3, 1000000⟩)],
    package_cache := [entryA, entryB, entryC] }

/-- C6: pruning the three-entry 1 MB cache removes the 700000- and
300000-byte entries (oldest first) from both the entries map and the
directory, leaving exactly the newest 1000000-byte entry; and in general
the purge selection is always in oldest-`created_at`-first order. -/
theorem prune_oldest_first :
    ExtensionCache._prune_cache cacheC6 =
      some { maxsize_mb := 1, cache_dir := [(['c'], ⟨3, 1000000⟩)],
             package_cache := [entryC] } ∧
    (∀ c to_purge, pruneSelection c = some to_purge →
      to_purge.Pairwise (fun a b => a.created_at ≤ b.created_at)) := by
  constructor
  · rfl
  · intro c to_purge hps
    unfold pruneSelection at hps
    have hsub := purgeSelect_sublist _ _ _ _ hps
    have hasc : (sortCreatedDesc c.package_cache).reverse.Pairwise
        (fun a b => a.created_at ≤ b.created_at) := by
      rw [List.pairwise_reverse]
      exact sortCreatedDesc_pairwise c.package_cache
    exact hasc.sublist hsub

theorem prune_oldest_first_witness :
    List.Pairwise (fun a b => a.created_at ≤ b.created_at)
      [entryA, entryB] :=
  prune_oldest_first.2 cacheC6 [entryA, entryB] rfl

theorem find_key_eq (l : List CachedExtension) (p : CachedExtension)
    (hnd : (l.map CachedExtension.extension).Nodup) (hp : p ∈ l) :
    l.find? (fun q => q.extension = p.extension) = some p := by
  induction l with
  | nil => simp at hp
  | cons x xs ih =>
    simp only [List.map_cons, List.nodup_cons] at hnd
    obtain ⟨hx, hxs⟩ := hnd
    rcases List.mem_cons.mp hp with rfl | hp'
    · rw [List.find?_cons_of_pos _ (by simp)]
    · have hne : ¬(x.extension = p.extension) := by
        intro hcontra
        exact hx
          (hcontra ▸ List.mem_map_of_mem CachedExtension.extension hp')
      rw [List.find?_cons_of_neg _ (by simp [hne])]
      exact ih hxs hp'

theorem mem_eraseP_of_key_ne (l : List CachedExtension) (k : Extension)
    (q : CachedExtension) (hq : q ∈ l) (hne : ¬(q.extension = k)) :
    q ∈ l.eraseP (fun p => p.extension = k) := by
  induction l with
  | nil => simp at hq
  | cons x xs ih =>
    by_cases hx : x.extension = k
    · rw [List.eraseP_cons_of_pos (by simp [hx])]
      rcases List.mem_cons.mp hq with rfl | hq'
      · exact absurd hx hne
      · exact hq'
    · rw [List.eraseP_cons_of_neg (by simp [hx])]
      rcases List.mem_cons.mp hq with rfl | hq'
      · exact List.mem_cons_self _ _
      · exact List.mem_cons_of_mem _ (ih hq')

theorem sum_eraseP_key (l : List CachedExtension) (p : CachedExtension)
    (hnd : (l.map CachedExtension.extension).Nodup) (hp : p ∈ l) :
    p.byte_size ≤ (l.map CachedExtension.byte_size).sum ∧
    ((l.eraseP (fun q => q.extension = p.extension)).map
        CachedExtension.byte_size).sum
      = (l.map CachedExtension.byte_size).sum - p.byte_size := by
  induction l with
  | nil => simp at hp
  | cons x xs ih =>
    simp only [List.map_cons, List.nodup_cons] at hnd
    obtain ⟨hxk, hxs⟩ := hnd
    rcases List.mem_cons.mp hp with rfl | hp'
    · rw [List.eraseP_cons_of_pos (by simp)]
      constructor
      · simp only [List.map_cons, List.sum_cons]
        omega
      · simp only [List.map_cons, List.sum_cons]
        omega
    · have hne : ¬(x.extension = p.extension) := by
        intro hcontra
        exact hxk
          (hcontra ▸ List.mem_map_of_mem CachedExtension.extension hp')
      rw [List.eraseP_cons_of_neg (by simp [hne])]
      obtain ⟨ih1, ih2⟩ := ih hxs hp'
      constructor
      · simp only [List.map_cons, List.sum_cons]
        omega
      · simp only [List.map_cons, List.sum_cons, ih2]
        omega

theorem remove_of_mem (c : ExtensionCache) (p : CachedExtension)
    (hnd : (c.package_cache.map CachedExtension.extension).Nodup)
    (hp : p ∈ c.package_cache) :
    c.remove p.extension =
      { c with
        package_cache :=
          c.package_cache.eraseP (fun q => q.extension = p.extension),
        cache_dir :=
          c.cache_dir.eraseP (fun f => f.fst = p.cache_path) } := by
  unfold ExtensionCache.remove
  rw [find_key_eq c.package_cache p hnd hp]

theorem remove_nodup (c : ExtensionCache) (k : Extension)
    (hnd : (c.package_cache.map CachedExtension.extension).Nodup) :
    ((c.remove k).package_cache.map CachedExtension.extension).Nodup := by
  unfold ExtensionCache.remove
  cases hf : c.package_cache.find? (fun p => p.extension = k) with
  | none => exact hnd
  | some ext =>
    exact List.Nodup.sublist ((List.eraseP_sublist _).map _) hnd

theorem remove_maxsize (c : ExtensionCache) (k : Extension) :
    (c.remove k).maxsize_mb = c.maxsize_mb := by
  unfold ExtensionCache.remove
  cases hf : c.package_cache.find? (fun p => p.extension = k) with
  | none => rfl
  | some ext => rfl

theorem purgeFold_totalBytes (l : List CachedExtension) :
    ∀ (c : ExtensionCache),
      (c.package_cache.map CachedExtension.extension).Nodup →
      (∀ p ∈ l, p ∈ c.package_cache) →
      (l.map CachedExtension.extension).Nodup →
      totalBytes (l.foldl (fun acc p => acc.remove p.extension) c)
          = totalBytes c - (l.map CachedExtension.byte_size).sum ∧
        (l.foldl (fun acc p => acc.remove p.extension) c).maxsize_mb
          = c.maxsize_mb := by
  induction l with
  | nil =>
    intro c _ _ _
    simp
  | cons p l' ih =>
    intro c hnd hmem hlnd
    have hpmem : p ∈ c.package_cache := hmem p (List.mem_cons_self _ _)
    have hremove := remove_of_mem c p hnd hpmem
    simp only [List.map_cons, List.nodup_cons] at hlnd
    obtain ⟨hpk, hlnd'⟩ := hlnd
    have hc1pkg : (c.remove p.extension).package_cache =
        c.package_cache.eraseP (fun q => q.extension = p.extension) := by
      rw [hremove]
    have hnd1 := remove_nodup c p.extension hnd
    have hmem1 : ∀ q ∈ l', q ∈ (c.remove p.extension).package_cache := by
      intro q hq
      rw [hc1pkg]
      refine mem_eraseP_of_key_ne _ _ _
        (hmem q (List.mem_cons_of_mem _ hq)) ?_
      intro hcontra
      exact hpk
        (hcontra ▸ List.mem_map_of_mem CachedExtension.extension hq)
    obtain ⟨hle, hsum⟩ := sum_eraseP_key c.package_cache p hnd hpmem
    obtain ⟨ihsum, ihmax⟩ := ih (c.remove p.extension) hnd1 hmem1 hlnd'
    have htot1 : totalBytes (c.remove p.extension) =
        totalBytes c - p.byte_size := by
      unfold totalBytes
      rw [hc1pkg]
      exact hsum
    constructor
    · simp only [List.foldl_cons]
      rw [ihsum, htot1]
      simp only [List.map_cons, List.sum_cons]
      omega
    · simp only [List.foldl_cons]
      rw [ihmax, remove_maxsize]

theorem prune_totalBytes_le (c : ExtensionCache)
    (hnd : (c.package_cache.map CachedExtension.extension).Nodup)
    (c' : ExtensionCache) (h : ExtensionCache._prune_cache c = some c') :
    totalBytes c' ≤ c.maxsize_mb * mbBytes ∧
      c'.maxsize_mb = c.maxsize_mb := by
  unfold ExtensionCache._prune_cache at h
  split at h
  case isTrue hle =>
    obtain rfl : c = c' := by injection h
    exact ⟨hle, rfl⟩
  case isFalse hgt =>
    cases hps : pruneSelection c with
    | none => rw [hps] at h; simp at h
    | some to_purge =>
      rw [hps] at h
      obtain rfl :
          to_purge.foldl (fun acc p => acc.remove p.extension) c = c' := by
        injection h
      unfold pruneSelection at hps
      have hsub := purgeSelect_sublist _ _ _ _ hps
      have hsum := purgeSelect_sum _ _ _ _ hps
      have hperm :
          List.Perm (sortCreatedDesc c.package_cache).reverse
            c.package_cache :=
        (List.reverse_perm _).trans (sortCreatedDesc_perm _)
      have hmem : ∀ p ∈ to_purge, p ∈ c.package_cache :=
        fun p hp => hperm.mem_iff.mp (hsub.subset hp)
      have hlnd : (to_purge.map CachedExtension.extension).Nodup := by
        have hpoolnd :
            ((sortCreatedDesc c.package_cache).reverse.map
              CachedExtension.extension).Nodup :=
          ((hperm.map CachedExtension.extension).nodup_iff).mpr hnd
        exact List.Nodup.sublist (hsub.map _) hpoolnd
      obtain ⟨htot, hmax⟩ := purgeFold_totalBytes to_purge c hnd hmem hlnd
      refine ⟨?_, hmax⟩
      rw [htot]
      omega

theorem pruneSelection_isSome (c : ExtensionCache) :
    (pruneSelection c).isSome := by
  have hperm :
      List.Perm (sortCreatedDesc c.package_cache).reverse
        c.package_cache :=
    (List.reverse_perm _).trans (sortCreatedDesc_perm _)
  have hsum :
      ((sortCreatedDesc c.package_cache).reverse.map
        CachedExtension.byte_size).sum = totalBytes c :=
    (hperm.map CachedExtension.byte_size).sum_eq
  unfold pruneSelection
  exact purgeSelect_isSome _ _ 0 (by rw [hsum]; omega)

theorem prune_cache_isSome (c : ExtensionCache) :
    (ExtensionCache._prune_cache c).isSome := by
  unfold ExtensionCache._prune_cache
  split
  · simp
  · cases hps : pruneSelection c with
    | none =>
      have := pruneSelection_isSome c
      rw [hps] at this
      simp at this
    | some to_purge => simp

/-- C8: whenever the total entry size exceeds the configured maximum, the
removal loop terminates without popping an exhausted list (also when one
oldest entry overshoots `bytes_needed`): the selection and the whole prune
return a result instead of an `IndexError`. -/
theorem prune_cache_terminates (c : ExtensionCache)
    (h : c.maxsize_mb * mbBytes < totalBytes c) :
    (pruneSelection c).isSome ∧ (ExtensionCache._prune_cache c).isSome :=
  ⟨pruneSelection_isSome c, prune_cache_isSome c⟩

theorem prune_cache_terminates_witness :
    (pruneSelection cacheC6).isSome ∧
      (ExtensionCache._prune_cache cacheC6).isSome :=
  prune_cache_terminates cacheC6 (by decide)

theorem find_map_overwrite (d : Dir) (name : List Char) (f : PyFile) :
    d.any (fun g => g.fst = name) = true →
    (d.map (fun g => if g.fst = name then (name, f) else g)).find?
      (fun g => g.fst = name) = some (name, f) := by
  induction d with
  | nil => intro h; simp at h
  | cons g gs ih =>
    intro hany
    by_cases hg : g.fst = name
    · simp only [List.map_cons, if_pos hg]
      rw [List.find?_cons_of_pos _ (by simp)]
    · simp only [List.map_cons, if_neg hg]
      rw [List.find?_cons_of_neg _ (by simp [hg])]
      apply ih
      rw [List.any_cons, Bool.or_eq_true] at hany
      rcases hany with h1 | h1
      · exact absurd (of_decide_eq_true h1) hg
      · exact h1

theorem find_append_new (d : Dir) (name : List Char) (f : PyFile) :
    d.any (fun g => g.fst = name) = false →
    (d ++ [(name, f)]).find? (fun g => g.fst = name) = some (name, f) := by
  induction d with
  | nil =>
    intro _
    simp only [List.nil_append]
    rw [List.find?_cons_of_pos _ (by simp)]
  | cons g gs ih =>
    intro hnone
    rw [List.any_cons, Bool.or_eq_false_iff] at hnone
    obtain ⟨h1, h2⟩ := hnone
    have hg : ¬(g.fst = name) := of_decide_eq_false h1
    rw [List.cons_append, List.find?_cons_of_neg _ (by simp [hg])]
    exact ih h2

theorem dirSet_find (d : Dir) (name : List Char) (f : PyFile) :
    (dirSet d name f).find? (fun g => g.fst = name) = some (name, f) := by
  unfold dirSet
  split
  case isTrue h => exact find_map_overwrite d name f h
  case isFalse h =>
    exact find_append_new d name f (Bool.eq_false_iff.mpr h)

theorem dictSet_nodup (l : List CachedExtension) (e : CachedExtension)
    (hnd : (l.map CachedExtension.extension).Nodup) :
    ((dictSet l e).map CachedExtension.extension).Nodup := by
  unfold dictSet
  split
  case isTrue hany =>
    have hkeys :
        (l.map (fun p => if p.extension = e.extension then e else p)).map
          CachedExtension.extension = l.map CachedExtension.extension := by
      rw [List.map_map]
      refine List.map_congr_left ?_
      intro p hp
      by_cases hpk : p.extension = e.extension
      · simp [Function.comp, hpk]
      · simp [Function.comp, hpk]
    rw [hkeys]
    exact hnd
  case isFalse hany =>
    rw [List.map_append]
    have hnotin : e.extension ∉ l.map CachedExtension.extension := by
      intro hmem
      obtain ⟨p, hp, hpe⟩ := List.mem_map.mp hmem
      have hcontra : l.any (fun p => p.extension = e.extension) = true :=
        List.any_eq_true.mpr ⟨p, hp, by simp [hpe]⟩
      simp [hcontra] at hany
    simp [List.nodup_append, hnd, hnotin]

theorem from_vsix_path_ok_inv (d : Dir) (name : List Char)
    (ext : CachedExtension)
    (h : CachedExtension.from_vsix_path d name = .ok ext) :
    ∃ w stats eid,
      d.find? (fun f => f.fst = name) = some (w, stats) ∧
      (pathSuffix name).map Char.toLower = ['.', 'v', 's', 'i', 'x'] ∧
      pySplit '_' (pathStem name) = [eid, ext.version] ∧
      Extension.from_id eid = some ext.extension ∧
      ext = ⟨ext.extension, ext.version, stats.mtime, name,
        stats.size⟩ := by
  unfold CachedExtension.from_vsix_path at h
  split at h
  · simp at h
  next w stats heq =>
    split at h
    · simp at h
    next hsuf =>
      split at h
      next eid ver hsplit =>
        split at h
        · simp at h
        next e hfid =>
          simp only [Except.ok.injEq] at h
          subst h
          exact ⟨w, stats, eid, heq, not_not.mp hsuf, hsplit, hfid, rfl⟩
      next hother => simp at h

theorem from_vsix_path_eq_ok (d : Dir) (name w : List Char)
    (stats : PyFile) (eid ver : List Char) (e : Extension)
    (hfind : d.find? (fun f => f.fst = name) = some (w, stats))
    (hsuf : (pathSuffix name).map Char.toLower = ['.', 'v', 's', 'i', 'x'])
    (hsplit : pySplit '_' (pathStem name) = [eid, ver])
    (hfid : Extension.from_id eid = some e) :
    CachedExtension.from_vsix_path d name =
      .ok ⟨e, ver, stats.mtime, name, stats.size⟩ := by
  simp [CachedExtension.from_vsix_path, hfind, hsuf, hsplit, hfid]

theorem insertCopy_bound (src : Dir) (c : ExtensionCache)
    (name : List Char) (pre : CachedExtension)
    (hnd : (c.package_cache.map CachedExtension.extension).Nodup)
    (hok : CachedExtension.from_vsix_path src name = .ok pre) :
    totalBytes (insertCopy src c name).1 ≤ c.maxsize_mb * mbBytes := by
  obtain ⟨w, stats, eid, hfind, hsuf, hsplit, hfid, hpre⟩ :=
    from_vsix_path_ok_inv src name pre hok
  have hdest := from_vsix_path_eq_ok (dirSet c.cache_dir name stats) name
    name stats eid pre.version pre.extension (dirSet_find _ _ _) hsuf
    hsplit hfid
  have hic : insertCopy src c name = insertCopied c name stats := by
    unfold insertCopy
    rw [hfind]
  have hic2 : insertCopied c name stats =
      registerAndPrune
        { c with
          cache_dir := dirSet c.cache_dir name stats,
          package_cache := dictSet c.package_cache
            ⟨pre.extension, pre.version, stats.mtime, name,
              stats.size⟩ } := by
    unfold insertCopied
    rw [hdest]
  rw [hic, hic2]
  have hnd2 : ((dictSet c.package_cache
      ⟨pre.extension, pre.version, stats.mtime, name, stats.size⟩).map
        CachedExtension.extension).Nodup := dictSet_nodup _ _ hnd
  cases hq : ExtensionCache._prune_cache
      { c with
        cache_dir := dirSet c.cache_dir name stats,
        package_cache := dictSet c.package_cache
          ⟨pre.extension, pre.version, stats.mtime, name,
            stats.size⟩ } with
  | none =>
    have hterm := prune_cache_isSome
      { c with
        cache_dir := dirSet c.cache_dir name stats,
        package_cache := dictSet c.package_cache
          ⟨pre.extension, pre.version, stats.mtime, name,
            stats.size⟩ }
    rw [hq] at hterm
    simp at hterm
  | some c3 =>
    have hr : registerAndPrune
        { c with
          cache_dir := dirSet c.cache_dir name stats,
          package_cache := dictSet c.package_cache
            ⟨pre.extension, pre.version, stats.mtime, name,
              stats.size⟩ } = (c3, none) := by
      unfold registerAndPrune
      rw [hq]
    rw [hr]
    obtain ⟨hb, hm⟩ := prune_totalBytes_le _ hnd2 c3 hq
    exact hb

/-- The file name `p.a_1.vsix`. -/
def nameC7 : List Char := ['p', '.', 'a', '_', '1', '.', 'v', 's', 'i', 'x']

/-- A source directory holding `p.a_1.vsix`. -/
def srcC7 : Dir := [(nameC7, ⟨9, 123⟩)]

/-- A cache over its 1 MB budget that already holds `p.a` at version 1. -/
def cacheC7 : ExtensionCache :=
  { maxsize_mb := 1,
    cache_dir := [(nameC7, ⟨5, 2097152⟩)],
    package_cache := [⟨extA, ['1'], 5, nameC7, 2097152⟩] }

/-- C7 counterexample: the claim says the size bound holds after every
insert on any prior entry set, but inserting a version already cached
(without `force`) short-circuits before the eviction step, so a cache
already over its maximum stays over it. -/
theorem insert_short_circuit_oversized :
    ExtensionCache.insert srcC7 cacheC7 nameC7 false = (cacheC7, none) ∧
    cacheC7.maxsize_mb * mbBytes <
      totalBytes (ExtensionCache.insert srcC7 cacheC7 nameC7 false).1 := by
  constructor
  · rfl
  · decide

/-- C7 (amended): an insert either leaves the cache state exactly
unchanged (same-version short-circuit, or an error raised before any
mutation) or it ran the eviction step and the resulting total entry size
is at most `max_size_mb`; in particular every insert preserves the size
bound when it held beforehand. -/
theorem insert_size_bound (src : Dir) (c : ExtensionCache)
    (vsix_filepath : List Char) (force : Bool)
    (hnd : (c.package_cache.map CachedExtension.extension).Nodup) :
    ((ExtensionCache.insert src c vsix_filepath force).1 = c ∨
      totalBytes (ExtensionCache.insert src c vsix_filepath force).1
        ≤ c.maxsize_mb * mbBytes) ∧
    (totalBytes c ≤ c.maxsize_mb * mbBytes →
      totalBytes (ExtensionCache.insert src c vsix_filepath force).1
        ≤ c.maxsize_mb * mbBytes) := by
  have main : (ExtensionCache.insert src c vsix_filepath force).1 = c ∨
      totalBytes (ExtensionCache.insert src c vsix_filepath force).1
        ≤ c.maxsize_mb * mbBytes := by
    cases hok : CachedExtension.from_vsix_path src vsix_filepath with
    | error e =>
      left
      have hins : ExtensionCache.insert src c vsix_filepath force =
          (c, some e) := by
        unfold ExtensionCache.insert
        rw [hok]
      rw [hins]
    | ok pre =>
      have hins : ExtensionCache.insert src c vsix_filepath force =
          insertWithPre src c vsix_filepath force pre := by
        unfold ExtensionCache.insert
        rw [hok]
      rw [hins]
      cases hchk : c.package_cache.find?
          (fun p => p.extension = pre.extension) with
      | some chk =>
        have hi2 : insertWithPre src c vsix_filepath force pre =
            (if chk.version = pre.version ∧ force = false then (c, none)
             else insertCopy src (c.remove pre.extension) vsix_filepath)
            := by
          unfold insertWithPre
          rw [hchk]
        rw [hi2]
        split
        · left
          rfl
        · right
          have hnd' := remove_nodup c pre.extension hnd
          have hb := insertCopy_bound src (c.remove pre.extension)
            vsix_filepath pre hnd' hok
          rw [remove_maxsize c pre.extension] at hb
          exact hb
      | none =>
        have hi2 : insertWithPre src c vsix_filepath force pre =
            insertCopy src c vsix_filepath := by
          unfold insertWithPre
          rw [hchk]
        rw [hi2]
        right
        exact insertCopy_bound src c vsix_filepath pre hnd hok
  refine ⟨main, fun hfit => ?_⟩
  rcases main with h | h
  · rw [h]
    exact hfit
  · exact h

theorem insert_size_bound_witness :
    ((ExtensionCache.insert [] ⟨1, [], []⟩ ['x'] false).1 =
        (⟨1, [], []⟩ : ExtensionCache) ∨
      totalBytes (ExtensionCache.insert [] ⟨1, [], []⟩ ['x'] false).1
        ≤ 1 * mbBytes) :=
  (insert_size_bound [] ⟨1, [], []⟩ ['x'] false (by simp)).1

/-- A bad source path makes `CachedExtension.from_vsix_path` raise: the
file is missing, the suffix is not `.vsix`, or the stem does not split
into exactly two parts. -/
theorem from_vsix_path_error_of_bad (src : Dir) (name : List Char)
    (h : src.find? (fun f => f.fst = name) = none ∨
         ¬((pathSuffix name).map Char.toLower = ['.', 'v', 's', 'i', 'x']) ∨
         ¬((pySplit '_' (pathStem name)).length = 2)) :
    ∃ e, CachedExtension.from_vsix_path src name = .error e := by
  rcases h with h | h | h
  · exact ⟨.fileNotFound, by simp [CachedExtension.from_vsix_path, h]⟩
  · cases hf : src.find? (fun f => f.fst = name) with
    | none =>
      exact ⟨.fileNotFound, by simp [CachedExtension.from_vsix_path, hf]⟩
    | some pr =>
      obtain ⟨w, stats⟩ := pr
      exact ⟨.notAVsix, by simp [CachedExtension.from_vsix_path, hf, h]⟩
  · cases hf : src.find? (fun f => f.fst = name) with
    | none =>
      exact ⟨.fileNotFound, by simp [CachedExtension.from_vsix_path, hf]⟩
    | some pr =>
      obtain ⟨w, stats⟩ := pr
      by_cases hs : (pathSuffix name).map Char.toLower =
          ['.', 'v', 's', 'i', 'x']
      · cases hsp : pySplit '_' (pathStem name) with
        | nil =>
          exact ⟨.malformedStem,
            by simp [CachedExtension.from_vsix_path, hf, hs, hsp]⟩
        | cons a t =>
          cases t with
          | nil =>
            exact ⟨.malformedStem,
              by simp [CachedExtension.from_vsix_path, hf, hs, hsp]⟩
          | cons b t2 =>
            cases t2 with
            | nil =>
              rw [hsp] at h
              simp at h
            | cons c3 t3 =>
              exact ⟨.malformedStem,
                by simp [CachedExtension.from_vsix_path, hf, hs, hsp]⟩
      · exact ⟨.notAVsix, by simp [CachedExtension.from_vsix_path, hf, hs]⟩

/-- C10: on a source path that does not exist, lacks the `.vsix` suffix,
or whose stem does not split into exactly an identifier and a version
part, `insert` raises before performing any mutation: the returned state
is exactly the prior cache (same entries map, directory files, and hence
cache size). -/
theorem insert_atomic_on_bad_input (src : Dir) (c : ExtensionCache)
    (name : List Char) (force : Bool)
    (h : src.find? (fun f => f.fst = name) = none ∨
         ¬((pathSuffix name).map Char.toLower = ['.', 'v', 's', 'i', 'x']) ∨
         ¬((pySplit '_' (pathStem name)).length = 2)) :
    (ExtensionCache.insert src c name force).1 = c ∧
    ((ExtensionCache.insert src c name force).2).isSome = true := by
  obtain ⟨e, he⟩ := from_vsix_path_error_of_bad src name h
  have hins : ExtensionCache.insert src c name force = (c, some e) := by
    unfold ExtensionCache.insert
    rw [he]
  rw [hins]
  exact ⟨rfl, rfl⟩

theorem insert_atomic_on_bad_input_witness :
    (ExtensionCache.insert [] ⟨1, [], []⟩ ['x'] false).1 =
      (⟨1, [], []⟩ : ExtensionCache) ∧
    ((ExtensionCache.insert [] ⟨1, [], []⟩ ['x'] false).2).isSome = true :=
  insert_atomic_on_bad_input [] ⟨1, [], []⟩ ['x'] false (Or.inl (by decide))

end DlVsix
